import Mathlib

/-!
# Verification of the `server-timing` ledger and header formatter

Shallow embedding of the `ServerTiming` class from `src/index.ts` (the
current API: `add` / `start` / `end` / `track` / `headers` / `toString`)
and of the older grouped variant from `src/ServerTiming.ts`
(`note` / `group` / `start` / `end`).

Modelling conventions:
* `process.hrtime.bigint()` readings are natural numbers (nanoseconds);
  `new Date()` readings in the grouped variant are naturals (milliseconds).
  The clock value at each call site is passed in explicitly.
* JavaScript numbers are embedded as exact rationals `ℚ`.  The conversion
  `Number(end - start) / 1000000` is exact division in `ℚ`; `toFixed(p)`
  is round-half-up to `p` decimal digits on the exact value, and default
  number-to-string conversion prints the exact terminating decimal
  expansion (which agrees with JS shortest-round-trip printing on the
  values appearing in this development).
* JavaScript truthiness is embedded faithfully: `0` (number and bigint),
  `""`, and `undefined` are falsy, so `if (timing.dur)`, `if (timing.desc)`
  and `else if (timing.start)` test both presence and non-zero /
  non-emptiness.  The nullish coalescing `timing.end ?? now` tests presence
  only.
* Methods that `throw` are embedded as `Except`.  In the source every
  `throw` happens before any mutation of `this`, so an error result
  leaves the ledger exactly as it was; the embedding returns no new state
  on error, matching this.
* The `options.precision` field is a JS number that is either `+Infinity`
  (the default) or a finite digit count; it is embedded as `Option Nat`
  (`none` = unbounded).
-/

namespace STiming

/-- Error taxonomy of the spec.  The source throws plain `Error`s with
messages; the constructor used here records which kind of failure the
message describes, together with the offending value. -/
inductive STError where
  | validationError (value : String)
  | notStartedError (label : String)
  deriving Repr, DecidableEq

/-- `DetailedServerTimingLabel` from `src/index.ts`:
`{ label: string, desc?: string, dur?: number }`. -/
structure DetailedLabel where
  label : String
  desc : Option String
  dur : Option ℚ
  deriving Repr, DecidableEq

/-- `ServerTimingLabel = string | DetailedServerTimingLabel`. -/
inductive ServerTimingLabel where
  | str (label : String)
  | obj (label : String) (desc : Option String) (dur : Option ℚ)
  deriving Repr, DecidableEq

/-- One element of `this.timings`:
`DetailedServerTimingLabel & { start?: bigint, end?: bigint }`.
The source field `end` is a Lean keyword and is embedded as `endAt`. -/
structure Entry where
  label : String
  desc : Option String
  dur : Option ℚ
  start : Option Nat
  endAt : Option Nat
  deriving Repr, DecidableEq

/-- The `ServerTiming` class state: `this.timings` and
`this.options.precision` (`none` = `+Infinity`, the default). -/
structure ServerTiming where
  timings : List Entry
  precision : Option Nat
  deriving Repr, DecidableEq

/-- A fresh ledger: `new ServerTiming(options)`. -/
def mkServerTiming (precision : Option Nat) : ServerTiming :=
  { timings := [], precision := precision }

/-- Membership of a character in the token class of `labelRegex`
(`/^[a-zA-Z0-9\!\#\$\%\&\'\*\+\-\.\^\_\`\|\~]+$/`).  The punctuation
characters are listed by code point: 33 `!`, 35 `#`, 36 `$`, 37 `%`,
38 `&`, 39 apostrophe, 42 `*`, 43 `+`, 45 `-`, 46 `.`, 94 `^`, 95 `_`,
96 backtick, 124 `|`, 126 `~`. -/
def isTokenChar (c : Char) : Bool :=
  (65 ≤ c.toNat && c.toNat ≤ 90) || (97 ≤ c.toNat && c.toNat ≤ 122) ||
  (48 ≤ c.toNat && c.toNat ≤ 57) ||
  [33, 35, 36, 37, 38, 39, 42, 43, 45, 46, 94, 95, 96, 124, 126].contains c.toNat

/-- `labelObj.label.match(labelRegex)` succeeds: the label is a non-empty
string of token characters. -/
def matchesLabelRegex (s : String) : Bool :=
  !s.isEmpty && s.toList.all isTokenChar

/-- `descRegex = /["]/`: the description matches iff it contains a
double-quote character (code point 34). -/
def matchesDescRegex (s : String) : Bool :=
  s.toList.contains (Char.ofNat 34)

/-- JS truthiness of an optional string (`undefined` and `""` are falsy). -/
def truthyStr : Option String → Bool
  | none => false
  | some s => !s.isEmpty

/-- JS truthiness of an optional number (`undefined` and `0` are falsy). -/
def truthyQ : Option ℚ → Bool
  | none => false
  | some d => d != 0

/-- JS truthiness of an optional bigint (`undefined` and `0n` are falsy). -/
def truthyNat : Option Nat → Bool
  | none => false
  | some n => n != 0

/-- `transformLabel` from `src/index.ts`: normalize a bare string to
`{label}`, then validate the label against `labelRegex` and the (truthy)
description against `descRegex`, throwing on failure. -/
def transformLabel (obj : ServerTimingLabel) : Except STError DetailedLabel :=
  let labelObj : DetailedLabel :=
    match obj with
    | .str s => { label := s, desc := none, dur := none }
    | .obj l d du => { label := l, desc := d, dur := du }
  if !matchesLabelRegex labelObj.label then
    .error (.validationError labelObj.label)
  else if truthyStr labelObj.desc && matchesDescRegex (labelObj.desc.getD "") then
    .error (.validationError (labelObj.desc.getD ""))
  else
    .ok labelObj

/-- `add(labelObj)`: validate, then push the entry (no timer fields). -/
def add (st : ServerTiming) (labelObj : ServerTimingLabel) :
    Except STError ServerTiming := do
  let t ← transformLabel labelObj
  .ok { st with
    timings := st.timings ++
      [{ label := t.label, desc := t.desc, dur := t.dur,
         start := none, endAt := none }] }

/-- `start(labelObj)`: validate, then push the entry with
`start: process.hrtime.bigint()` (the reading is the `now` argument). -/
def start (st : ServerTiming) (labelObj : ServerTimingLabel) (now : Nat) :
    Except STError ServerTiming := do
  let t ← transformLabel labelObj
  .ok { st with
    timings := st.timings ++
      [{ label := t.label, desc := t.desc, dur := t.dur,
         start := some now, endAt := none }] }

/-- `this.timings.findIndex((t) => t.label === label)` followed by
`this.timings[timingIdx].end = ...`: set `endAt` on the first entry whose
label matches, or `none` when `findIndex` returns `-1`. -/
def setEndAt (ts : List Entry) (label : String) (now : Nat) :
    Option (List Entry) :=
  match ts with
  | [] => none
  | e :: rest =>
    if e.label == label then some ({ e with endAt := some now } :: rest)
    else (setEndAt rest label now).map (e :: ·)

/-- `end(labelObj)` (`endOp`; `end` is a Lean keyword): validate, locate
the first entry with the label, throw `NotStartedError` when there is
none, otherwise stamp its `end` field with the current clock reading. -/
def endOp (st : ServerTiming) (labelObj : ServerTimingLabel) (now : Nat) :
    Except STError ServerTiming := do
  let t ← transformLabel labelObj
  match setEndAt st.timings t.label now with
  | some ts => .ok { st with timings := ts }
  | none => .error (.notStartedError t.label)

/-- `track(labelObj, fn)`: `start`, run the operation, and `end` in a
`finally`.  The wrapped operation is modelled by its outcome
`op : Except ε α` (its own effects are outside the ledger).  The `finally`
runs `end` exactly once on every path that entered the `try`; the
operation's outcome — success value or thrown error — is then propagated
verbatim as the first component. -/
def track (st : ServerTiming) (labelObj : ServerTimingLabel)
    (op : Except ε α) (t1 t2 : Nat) :
    Except STError (Except ε α × ServerTiming) := do
  let st1 ← start st labelObj t1
  let st2 ← endOp st1 labelObj t2
  .ok (op, st2)

/-! ## Number formatting

The arithmetic below is written over the integer numerator/denominator
pair of the (always reduced) `ℚ` value, rather than with `ℚ` field
operations, so that every definition evaluates by kernel reduction;
bridging lemmas further down prove the integer forms equal to the
rational-arithmetic ones. -/

/-- Exactly `p` decimal digits of `n` (taken mod `10^p`), most significant
first, zero padded. -/
def fracDigits : Nat → Nat → String
  | 0, _ => ""
  | p + 1, n => fracDigits p (n / 10) ++ String.singleton (Nat.digitChar (n % 10))

/-- The rounded scaled value behind `toFixed`: the integer nearest to
`q * 10^p`, ties away from zero upward (round half up), computed as
`⌊q * 10^p + 1/2⌋ = (2 * q.num * 10^p + q.den) / (2 * q.den)`
(`toFixed_round_eq` below proves this equation). -/
def toFixedRound (p : Nat) (q : ℚ) : Int :=
  (2 * q.num * (10 : Int) ^ p + (q.den : Int)) / (2 * (q.den : Int))

/-- `Number.prototype.toFixed(p)` on the exact rational value: round half
up at `p` decimal digits, then print with exactly `p` digits after the
point (no point at all when `p = 0`). -/
def toFixed (p : Nat) (q : ℚ) : String :=
  let n : Int := toFixedRound p q
  if p == 0 then toString n
  else
    (if n < 0 then "-" else "") ++
      toString (n.natAbs / 10 ^ p) ++ "." ++ fracDigits p (n.natAbs % 10 ^ p)

/-- Smallest exponent `k ≤ 40` such that `q * 10^k` is integral
(`q.den` divides `10^k`; `q` is stored reduced), when one exists: the
length of the terminating decimal expansion of `q`. -/
def decExp (q : ℚ) : Option Nat :=
  (List.range 41).find? (fun k => 10 ^ k % q.den == 0)

/-- Default JS number-to-string conversion, modelled as the exact
terminating decimal expansion (minimal digits, so `53` prints `"53"` and
`47.2` prints `"47.2"`, as JS does). -/
def ratToString (q : ℚ) : String :=
  match decExp q with
  | none => toString q.num ++ "/" ++ toString q.den
  | some 0 => toString q.num
  | some (k + 1) =>
    let n : Int := q.num * ((10 ^ (k + 1) / q.den : Nat) : Int)
    (if n < 0 then "-" else "") ++
      toString (n.natAbs / 10 ^ (k + 1)) ++ "." ++
      fracDigits (k + 1) (n.natAbs % 10 ^ (k + 1))

/-- Result type of `formatDuration`: `number | string`. -/
inductive DurOut where
  | num (q : ℚ)
  | str (s : String)
  deriving Repr, DecidableEq

/-- `formatDuration(start, end)`: convert the elapsed nanoseconds to
milliseconds — `mkRat (end - start) 1000000`, which equals
`((end : ℚ) - start) / 1000000` exactly (`formatDuration_val` below) —
then with a finite configured precision return the `toFixed` string,
otherwise the number itself. -/
def formatDuration (precision : Option Nat) (start endv : Nat) : DurOut :=
  let dur : ℚ := mkRat ((endv : Int) - (start : Int)) 1000000
  match precision with
  | some p => .str (toFixed p dur)
  | none => .num dur

/-- Interpolation `;dur=${...}` of a `number | string` value. -/
def DurOut.render : DurOut → String
  | .num q => ratToString q
  | .str s => s

/-- The `dur` attribute rendered for one entry, if any:
`if (timing.dur) ... else if (timing.start) ...` with
`timing.end ?? now` for a still-running timer. -/
def entryDurOut (precision : Option Nat) (now : Nat) (e : Entry) :
    Option DurOut :=
  if truthyQ e.dur then some (.num (e.dur.getD 0))
  else if truthyNat e.start then
    some (formatDuration precision (e.start.getD 0) (e.endAt.getD now))
  else none

/-- The header fragment for one entry: label, then optionally
`;desc="<desc>"`, then optionally `;dur=<value>`. -/
def renderFragment (precision : Option Nat) (now : Nat) (e : Entry) : String :=
  let v := e.label
  let v := if truthyStr e.desc
    then v ++ ";desc=\"" ++ e.desc.getD "" ++ "\"" else v
  match entryDurOut precision now e with
  | some d => v ++ ";dur=" ++ d.render
  | none => v

/-- `headers()`: one `Server-Timing` value per entry, appended in entry
order (the `Headers` container is embedded as the list of appended
values). -/
def headers (st : ServerTiming) (now : Nat) : List String :=
  st.timings.map (renderFragment st.precision now)

/-- `toString()`: `this.headers().get(this.headerKey) ?? ''`.  The node
`Headers.get` joins appended values with `", "` and returns `null` when
nothing was appended. -/
def toString (st : ServerTiming) (now : Nat) : String :=
  match headers st now with
  | [] => ""
  | fs => String.intercalate ", " fs

/-- `headers()` as an explicit method call on `this`: the pair of the
return value and the state of `this` after the call.  The method body
only reads `this.timings` and `this.options` (its local `value` and the
fresh `Headers` object are not part of `this`), so the outgoing state is
the incoming one. -/
def headersM (st : ServerTiming) (now : Nat) :
    List String × ServerTiming :=
  (headers st now, st)

/-- `toString()` as an explicit method call on `this`, as `headersM`. -/
def toStringM (st : ServerTiming) (now : Nat) : String × ServerTiming :=
  (toString st now, st)

/-- Substring test (used to state what a rendered header does or does
not contain). -/
def containsSub (s sub : String) : Bool :=
  (List.range (s.length + 1)).any (fun i => sub.isPrefixOf (s.drop i))

/-! ## Sequences of mutation operations

Reachability of ledger states through the public mutating API, used for
the label-uniqueness claim.  A thrown error leaves the state as it was
(every `throw` in the source precedes any mutation). -/

/-- One mutating call, with the clock reading(s) taken during it. -/
inductive MOp where
  | addO (spec : ServerTimingLabel)
  | startO (spec : ServerTimingLabel) (t : Nat)
  | endO (spec : ServerTimingLabel) (t : Nat)
  | trackO (spec : ServerTimingLabel) (t1 t2 : Nat)
  deriving Repr, DecidableEq

/-- The ledger component reached by `track` (the wrapped operation's
outcome does not influence the ledger). -/
def trackLedger (st : ServerTiming) (labelObj : ServerTimingLabel)
    (t1 t2 : Nat) : Except STError ServerTiming := do
  let st1 ← start st labelObj t1
  endOp st1 labelObj t2

/-- Apply one mutating call; on `throw` the ledger is unchanged. -/
def stepM (st : ServerTiming) : MOp → ServerTiming
  | .addO spec => (add st spec).toOption.getD st
  | .startO spec t => (start st spec t).toOption.getD st
  | .endO spec t => (endOp st spec t).toOption.getD st
  | .trackO spec t1 t2 => (trackLedger st spec t1 t2).toOption.getD st

/-- Run a sequence of mutating calls from a fresh ledger. -/
def runM (precision : Option Nat) (ops : List MOp) : ServerTiming :=
  ops.foldl stepM (mkServerTiming precision)

/-- The label field of a `ServerTimingLabel`. -/
def ServerTimingLabel.labelOf : ServerTimingLabel → String
  | .str s => s
  | .obj l _ _ => l

/-- The desc field of a `ServerTimingLabel` (a bare string has none). -/
def ServerTimingLabel.descOf : ServerTimingLabel → Option String
  | .str _ => none
  | .obj _ d _ => d

/-- The dur field of a `ServerTimingLabel` (a bare string has none). -/
def ServerTimingLabel.durOf : ServerTimingLabel → Option ℚ
  | .str _ => none
  | .obj _ _ du => du

/-- The normalized label an operation would create an entry under
(entry-creating operations only). -/
def creationLabels : List MOp → List String
  | [] => []
  | .addO spec :: ops => spec.labelOf :: creationLabels ops
  | .startO spec _ :: ops => spec.labelOf :: creationLabels ops
  | .trackO spec _ _ :: ops => spec.labelOf :: creationLabels ops
  | .endO _ _ :: ops => creationLabels ops

/-- Number of entries carrying a given label. -/
def countLabel (st : ServerTiming) (l : String) : Nat :=
  (st.timings.map Entry.label).count l

end STiming

namespace Grouped

/-!
Embedding of the older `src/ServerTiming.ts`: `this.timings` holds plain
entries and nested `ServerTiming` instances; `group()` appends a fresh
nested instance and patches that instance's own `group` method to throw.
Clock readings are `new Date()` values (milliseconds, naturals); this
version performs no label/desc validation. -/

/-- Errors of the grouped variant.  `badAddr` is an artefact of the
addressing model below (directing a call at a sequence position that does
not hold a nested ledger), never reached by real call sequences. -/
inductive GErr where
  | nestingError
  | notStartedError (label : String)
  | badAddr
  deriving Repr, DecidableEq

/-- An element of `this.timings`: a plain entry or a nested instance.
`patched` records whether the instance's `group` was overridden to throw
(done to every instance created by `group()`). -/
inductive Item where
  | entry (label : String) (desc : Option String) (dur : Option ℚ)
      (start : Option Nat) (endAt : Option Nat) : Item
  | sub (patched : Bool) (timings : List Item) : Item

/-- A ledger of the grouped variant. -/
structure GLedger where
  patched : Bool
  timings : List Item

/-- One method call of the grouped variant (labels reach the timings
array unvalidated; `transformLabel` only normalizes). -/
inductive GOp where
  | note (label : String) (desc : Option String) (dur : Option ℚ)
  | startT (label : String) (desc : Option String) (dur : Option ℚ) (t : Nat)
  | endT (label : String) (t : Nat)
  | group
  deriving Repr, DecidableEq

/-- `findIndex((t) => !(t instanceof ServerTiming) && t.label === label)`
followed by stamping `end`: skip nested instances, set `endAt` on the
first plain entry whose label matches. -/
def setEndG (ts : List Item) (label : String) (t : Nat) :
    Option (List Item) :=
  match ts with
  | [] => none
  | .entry l d du s e :: rest =>
    if l == label then some (.entry l d du s (some t) :: rest)
    else (setEndG rest label t).map (.entry l d du s e :: ·)
  | .sub p sts :: rest =>
    (setEndG rest label t).map (.sub p sts :: ·)

/-- One call applied to the timings array of one instance.  `patched` is
that instance's `group`-override flag: a patched instance's `group()`
throws before doing anything. -/
def applyFlat (patched : Bool) (ts : List Item) :
    GOp → Except GErr (List Item)
  | .note l d du => .ok (ts ++ [.entry l d du none none])
  | .startT l d du t => .ok (ts ++ [.entry l d du (some t) none])
  | .endT l t =>
    match setEndG ts l t with
    | some ts2 => .ok ts2
    | none => .error (.notStartedError l)
  | .group =>
    if patched then .error .nestingError
    else .ok (ts ++ [.sub true []])

/-- Where a call is directed: at the outer ledger, or at the nested
instance stored at sequence position `i` (the reference `group()`
returned aliases that element, so mutations through it are visible in
the outer sequence). -/
inductive Addr where
  | top
  | child (i : Nat)
  deriving Repr, DecidableEq

/-- Apply one addressed call to the outer ledger. -/
def applyOp (st : GLedger) (a : Addr) (op : GOp) : Except GErr GLedger :=
  match a with
  | .top => do
    let ts ← applyFlat st.patched st.timings op
    .ok { st with timings := ts }
  | .child i =>
    match st.timings.get? i with
    | some (.sub p sts) => do
      let sts2 ← applyFlat p sts op
      .ok { st with timings := st.timings.set i (.sub p sts2) }
    | _ => .error .badAddr

/-- Run a sequence of addressed calls from `new ServerTiming()`; a
thrown error leaves the state unchanged (every `throw` in the source
precedes any mutation). -/
def runG (cmds : List (Addr × GOp)) : GLedger :=
  cmds.foldl
    (fun s c => (applyOp s c.1 c.2).toOption.getD s)
    { patched := false, timings := [] }

/-- An item that is a plain entry (not a nested instance). -/
def flatItem : Item → Bool
  | .entry .. => true
  | .sub .. => false

/-- Invariant carried by every reachable outer ledger: every nested
instance in the sequence has its `group` patched to throw and contains
no nested instance itself. -/
def goodItem : Item → Bool
  | .entry .. => true
  | .sub p ts => p && ts.all flatItem

mutual

/-- Nesting depth contributed by one item. -/
def itemDepth : Item → Nat
  | .entry _ _ _ _ _ => 0
  | .sub _ ts => 1 + itemListDepth ts

/-- Deepest item of a sequence. -/
def itemListDepth : List Item → Nat
  | [] => 0
  | i :: rest => Nat.max (itemDepth i) (itemListDepth rest)

end

/-- Nesting depth of a ledger: deepest item in its sequence. -/
def ledgerDepth (st : GLedger) : Nat :=
  itemListDepth st.timings

end Grouped

/-! ## Helper lemmas -/

namespace STiming

/-- `transformLabel` as one equation over the normalized fields. -/
theorem transformLabel_eq (spec : ServerTimingLabel) :
    transformLabel spec =
      if !matchesLabelRegex spec.labelOf then
        .error (.validationError spec.labelOf)
      else if truthyStr spec.descOf &&
          matchesDescRegex (spec.descOf.getD "") then
        .error (.validationError (spec.descOf.getD ""))
      else
        .ok ⟨spec.labelOf, spec.descOf, spec.durOf⟩ := by
  cases spec <;> rfl

/-- A successful `transformLabel` returns the normalized fields and
certifies the validation checks. -/
theorem transformLabel_ok {spec : ServerTimingLabel} {tl : DetailedLabel}
    (h : transformLabel spec = .ok tl) :
    tl = ⟨spec.labelOf, spec.descOf, spec.durOf⟩ ∧
      matchesLabelRegex spec.labelOf = true ∧
      (truthyStr spec.descOf && matchesDescRegex (spec.descOf.getD ""))
        = false := by
  rw [transformLabel_eq] at h
  by_cases h1 : matchesLabelRegex spec.labelOf
  · by_cases h2 : truthyStr spec.descOf &&
        matchesDescRegex (spec.descOf.getD "")
    · simp [h1, h2] at h
    · simp [h1, h2] at h
      exact ⟨h.symm, h1, by simpa using h2⟩
  · simp [h1] at h

/-- `findIndex` misses: no entry carries the label. -/
theorem setEndAt_of_not_mem (ts : List Entry) (l : String) (now : Nat)
    (h : ∀ e ∈ ts, e.label ≠ l) : setEndAt ts l now = none := by
  induction ts with
  | nil => rfl
  | cons e rest ih =>
    have he : e.label ≠ l := h e (List.mem_cons_self ..)
    simp only [setEndAt, beq_iff_eq, if_neg he]
    rw [ih (fun e' h' => h e' (List.mem_cons_of_mem _ h'))]
    rfl

/-- `findIndex` hits the first match: `end` stamps exactly that entry. -/
theorem setEndAt_first (pre : List Entry) (e : Entry) (post : List Entry)
    (l : String) (now : Nat)
    (hpre : ∀ e' ∈ pre, e'.label ≠ l) (he : e.label = l) :
    setEndAt (pre ++ e :: post) l now =
      some (pre ++ { e with endAt := some now } :: post) := by
  induction pre with
  | nil => simp [setEndAt, he]
  | cons f rest ih =>
    have hf : f.label ≠ l := hpre f (List.mem_cons_self ..)
    simp only [List.cons_append, setEndAt, beq_iff_eq, if_neg hf]
    simp only [List.append_eq]
    rw [ih (fun e' h' => hpre e' (List.mem_cons_of_mem _ h'))]
    rfl

/-- Stamping `end` never changes any label. -/
theorem setEndAt_labels {ts : List Entry} {l : String} {now : Nat}
    {ts' : List Entry} (h : setEndAt ts l now = some ts') :
    ts'.map Entry.label = ts.map Entry.label := by
  induction ts generalizing ts' with
  | nil => simp [setEndAt] at h
  | cons e rest ih =>
    simp only [setEndAt] at h
    by_cases hl : e.label == l
    · rw [if_pos hl] at h
      cases h
      rfl
    · rw [if_neg hl] at h
      cases hrec : setEndAt rest l now with
      | none => rw [hrec] at h; cases h
      | some ts2 =>
        rw [hrec] at h
        cases h
        simpa using ih hrec

/-- An appended matching entry guarantees `findIndex` hits. -/
theorem setEndAt_append_isSome (ts : List Entry) (e : Entry) (l : String)
    (now : Nat) (he : e.label = l) :
    (setEndAt (ts ++ [e]) l now).isSome := by
  induction ts with
  | nil => simp [setEndAt, he]
  | cons f rest ih =>
    simp only [List.cons_append, setEndAt]
    by_cases hf : f.label == l
    · simp [hf]
    · simp only [hf, if_neg]
      simpa using ih

end STiming

namespace STiming

/-- `fracDigits` always produces exactly `p` characters. -/
theorem fracDigits_length (p : Nat) : ∀ n, (fracDigits p n).length = p := by
  induction p with
  | zero => intro n; rfl
  | succ p ih =>
    intro n
    simp only [fracDigits]
    rw [String.length_append, ih]
    rfl

/-- A digit value below ten maps to a decimal digit character. -/
theorem digitChar_isDigit (m : Nat) (h : m < 10) :
    (Nat.digitChar m).isDigit = true := by
  interval_cases m <;> decide

/-- Every character `fracDigits` produces is a decimal digit. -/
theorem fracDigits_all_digits (p : Nat) :
    ∀ n, (fracDigits p n).data.all Char.isDigit = true := by
  induction p with
  | zero => intro n; rfl
  | succ p ih =>
    intro n
    simp only [fracDigits, String.data_append, List.all_append]
    rw [ih]
    simp [String.singleton, digitChar_isDigit _ (Nat.mod_lt _ (by norm_num))]

/-- With a positive digit count, `toFixed` splits at a decimal point
with exactly `p` decimal digit characters after it. -/
theorem toFixed_shape (p : Nat) (hp : 0 < p) (q : ℚ) :
    ∃ a b, toFixed p q = a ++ "." ++ b ∧ b.length = p ∧
      b.data.all Char.isDigit = true := by
  have hp0 : (p == 0) = false := by
    simp [Nat.pos_iff_ne_zero.mp hp]
  refine ⟨(if toFixedRound p q < 0 then "-" else "") ++
      ToString.toString ((toFixedRound p q).natAbs / 10 ^ p),
    fracDigits p ((toFixedRound p q).natAbs % 10 ^ p),
    ?_, fracDigits_length p _, fracDigits_all_digits p _⟩
  simp only [toFixed, hp0, Bool.false_eq_true, if_false]

/-- The integer computed by `toFixedRound` is the round-half-up of
`q * 10^p`: the floor of `q * 10^p + 1/2`. -/
theorem toFixed_round_eq (p : Nat) (q : ℚ) :
    toFixedRound p q = ⌊q * (10 : ℚ) ^ p + 1 / 2⌋ := by
  have hd0 : ((q.den : ℚ)) ≠ 0 := by
    exact_mod_cast q.den_nz
  have hq : q * (10 : ℚ) ^ p + 1 / 2 =
      ((2 * q.num * (10 : Int) ^ p + (q.den : Int) : Int) : ℚ) /
        ((2 * q.den : Nat) : ℚ) := by
    push_cast
    conv_lhs => rw [← Rat.num_div_den q]
    field_simp
    ring
  have hfl := Rat.floor_intCast_div_natCast
    (2 * q.num * (10 : Int) ^ p + (q.den : Int)) (2 * q.den)
  rw [hq, hfl, toFixedRound]
  push_cast
  ring_nf

/-- The millisecond value computed by `formatDuration` is exactly
`(end - start) / 1000000` in `ℚ`. -/
theorem formatDuration_val (s t : Nat) :
    (mkRat ((t : Int) - (s : Int)) 1000000 : ℚ) =
      ((t : ℚ) - (s : ℚ)) / 1000000 := by
  rw [Rat.mkRat_eq_divInt, Rat.divInt_eq_div]
  push_cast
  ring

/-- Unfolding `add` after a successful validation. -/
theorem add_ok {spec : ServerTimingLabel} {tl : DetailedLabel}
    (st : ServerTiming) (hv : transformLabel spec = .ok tl) :
    add st spec = .ok { st with
      timings := st.timings ++
        [{ label := tl.label, desc := tl.desc, dur := tl.dur,
           start := none, endAt := none }] } := by
  unfold add
  rw [hv]
  rfl

/-- Unfolding `add` after a failed validation. -/
theorem add_err {spec : ServerTimingLabel} {er : STError}
    (st : ServerTiming) (hv : transformLabel spec = .error er) :
    add st spec = .error er := by
  unfold add
  rw [hv]
  rfl

/-- Unfolding `start` after a successful validation. -/
theorem start_ok {spec : ServerTimingLabel} {tl : DetailedLabel}
    (st : ServerTiming) (now : Nat) (hv : transformLabel spec = .ok tl) :
    start st spec now = .ok { st with
      timings := st.timings ++
        [{ label := tl.label, desc := tl.desc, dur := tl.dur,
           start := some now, endAt := none }] } := by
  unfold start
  rw [hv]
  rfl

/-- Unfolding `start` after a failed validation. -/
theorem start_err {spec : ServerTimingLabel} {er : STError}
    (st : ServerTiming) (now : Nat) (hv : transformLabel spec = .error er) :
    start st spec now = .error er := by
  unfold start
  rw [hv]
  rfl

/-- Unfolding `endOp` after a successful validation. -/
theorem endOp_eq {spec : ServerTimingLabel} {tl : DetailedLabel}
    (st : ServerTiming) (now : Nat) (hv : transformLabel spec = .ok tl) :
    endOp st spec now =
      match setEndAt st.timings tl.label now with
      | some ts => .ok { st with timings := ts }
      | none => .error (.notStartedError tl.label) := by
  unfold endOp
  rw [hv]
  rfl

/-- Unfolding `endOp` after a failed validation. -/
theorem endOp_err {spec : ServerTimingLabel} {er : STError}
    (st : ServerTiming) (now : Nat) (hv : transformLabel spec = .error er) :
    endOp st spec now = .error er := by
  unfold endOp
  rw [hv]
  rfl

end STiming

/-! ## Claim theorems -/

namespace Claims

open STiming

/-- C10: rendering a freshly constructed ledger with no entries succeeds
and its string form (`toString`) is exactly the empty string, for every
configured precision and every render-time clock value. -/
theorem c10_empty_toString :
    ∀ (precision : Option Nat) (now : Nat),
      STiming.toString (mkServerTiming precision) now = "" := by
  intro precision now
  rfl

/-- C2: the render operations (`headers` / `toString`), embedded as
explicit method calls returning the state of `this` after the call, do
not mutate the ledger: the outgoing state equals the incoming one in
every field, and in particular the `endAt` (source: `end`) fields of all
entries — including still-running ones — are unchanged.  (The method
bodies read `this.timings` and `this.options` but never assign to them;
a running entry's provisional end is the local
`timing.end ?? process.hrtime.bigint()`.) -/
theorem c2_render_no_mutation :
    ∀ (st : ServerTiming) (now : Nat),
      (headersM st now).2 = st ∧
      (toStringM st now).2 = st ∧
      (headersM st now).2.timings.map Entry.endAt =
        st.timings.map Entry.endAt ∧
      (headersM st now).2.timings.map Entry.label =
        st.timings.map Entry.label := by
  intro st now
  exact ⟨rfl, rfl, rfl, rfl⟩

/-- C7: `end` on a (valid) label carried by no entry of the ledger fails
with `NotStartedError`, and the ledger is left exactly as it was: the
failing call, run as a step of the mutation semantics, is the
identity. -/
theorem c7_end_not_started (st : ServerTiming) (spec : ServerTimingLabel)
    (now : Nat) (tl : DetailedLabel)
    (hv : transformLabel spec = .ok tl)
    (hno : ∀ e ∈ st.timings, e.label ≠ tl.label) :
    endOp st spec now = .error (.notStartedError tl.label) ∧
      stepM st (.endO spec now) = st := by
  have hnone := setEndAt_of_not_mem st.timings tl.label now hno
  have hend : endOp st spec now = .error (.notStartedError tl.label) := by
    rw [endOp_eq st now hv, hnone]
  exact ⟨hend, by simp [stepM, hend, Except.toOption]⟩

/-- Witness for C7 at a concrete input: `end("foo")` on a fresh ledger. -/
theorem c7_witness :
    transformLabel (.str "foo") = .ok ⟨"foo", none, none⟩ ∧
      endOp (mkServerTiming none) (.str "foo") 5 =
        .error (.notStartedError "foo") ∧
      stepM (mkServerTiming none) (.endO (.str "foo") 5) =
        mkServerTiming none := by
  refine ⟨by rfl, ?_⟩
  exact c7_end_not_started (mkServerTiming none) (.str "foo") 5
    ⟨"foo", none, none⟩ (by rfl) (by intro e he; cases he)

/-- `Except.ok` feeds the continuation of a `do` block directly. -/
theorem STiming.except_bind_ok {A B E : Type} (a : A)
    (f : A → Except E B) : (Except.ok a >>= f : Except E B) = f a := rfl

/-- Unfolding `track` after a successful validation: the ledger result is
`end` applied to the ledger with the started entry appended, and the
wrapped operation's outcome is paired up unchanged. -/
theorem STiming.track_eq {spec : ServerTimingLabel} {tl : DetailedLabel}
    (st : ServerTiming) {ε α : Type} (op : Except ε α) (t1 t2 : Nat)
    (hv : transformLabel spec = .ok tl) :
    track st spec op t1 t2 =
      (endOp { st with timings := st.timings ++
          [{ label := tl.label, desc := tl.desc, dur := tl.dur,
             start := some t1, endAt := none }] } spec t2).map
        (fun st2 => (op, st2)) := by
  unfold track
  rw [start_ok st t1 hv, STiming.except_bind_ok]
  cases endOp { st with timings := st.timings ++
      [{ label := tl.label, desc := tl.desc, dur := tl.dur,
         start := some t1, endAt := none }] } spec t2 <;> rfl

/-- Unfolding `track` after a failed validation: the wrapped operation
never runs and the error propagates. -/
theorem STiming.track_err {spec : ServerTimingLabel} {er : STError}
    (st : ServerTiming) {ε α : Type} (op : Except ε α) (t1 t2 : Nat)
    (hv : transformLabel spec = .error er) :
    track st spec op t1 t2 = .error er := by
  unfold track
  rw [start_err st t1 hv]
  rfl

/-- C5: a labelSpec whose label fails the token grammar makes `add`,
`start` and `track` fail synchronously with a `ValidationError` naming
the label, and leaves the ledger untouched (the failing step is the
identity on state, so no entry is created); a truthy description
containing a double quote likewise fails with a `ValidationError` naming
the description; a label of token characters together with a
quote-free description is accepted, appending exactly the normalized
entry. -/
theorem c5_validation (st : ServerTiming) (spec : ServerTimingLabel)
    (t t1 t2 : Nat) {ε α : Type} (op : Except ε α) :
    (matchesLabelRegex spec.labelOf = false →
      add st spec = .error (.validationError spec.labelOf) ∧
      start st spec t = .error (.validationError spec.labelOf) ∧
      track st spec op t1 t2 = .error (.validationError spec.labelOf) ∧
      stepM st (.addO spec) = st ∧
      stepM st (.startO spec t) = st ∧
      stepM st (.trackO spec t1 t2) = st) ∧
    (matchesLabelRegex spec.labelOf = true →
      (truthyStr spec.descOf &&
        matchesDescRegex (spec.descOf.getD "")) = true →
      add st spec = .error (.validationError (spec.descOf.getD "")) ∧
      start st spec t = .error (.validationError (spec.descOf.getD "")) ∧
      track st spec op t1 t2 =
        .error (.validationError (spec.descOf.getD "")) ∧
      stepM st (.addO spec) = st) ∧
    (matchesLabelRegex spec.labelOf = true →
      (truthyStr spec.descOf &&
        matchesDescRegex (spec.descOf.getD "")) = false →
      add st spec = .ok { st with timings := st.timings ++
        [{ label := spec.labelOf, desc := spec.descOf, dur := spec.durOf,
           start := none, endAt := none }] } ∧
      start st spec t = .ok { st with timings := st.timings ++
        [{ label := spec.labelOf, desc := spec.descOf, dur := spec.durOf,
           start := some t, endAt := none }] }) := by
  refine ⟨?_, ?_, ?_⟩
  · intro h
    have hv : transformLabel spec = .error (.validationError spec.labelOf) := by
      rw [transformLabel_eq]
      simp [h]
    have ha := add_err st hv
    have hs := start_err st t hv
    have ht := STiming.track_err st op t1 t2 hv
    have htl : trackLedger st spec t1 t2 =
        .error (.validationError spec.labelOf) := by
      unfold trackLedger
      rw [start_err st t1 hv]
      rfl
    exact ⟨ha, hs, ht, by simp [stepM, ha, Except.toOption],
      by simp [stepM, hs, Except.toOption],
      by simp [stepM, htl, Except.toOption]⟩
  · intro h1 h2
    have hv : transformLabel spec =
        .error (.validationError (spec.descOf.getD "")) := by
      rw [transformLabel_eq]
      simp [h1, h2]
    have ha := add_err st hv
    exact ⟨ha, start_err st t hv, STiming.track_err st op t1 t2 hv,
      by simp [stepM, ha, Except.toOption]⟩
  · intro h1 h2
    have hv : transformLabel spec =
        .ok ⟨spec.labelOf, spec.descOf, spec.durOf⟩ := by
      rw [transformLabel_eq]
      simp [h1, h2]
    exact ⟨add_ok st hv, start_ok st t hv⟩

/-- Witness for C5 at the spec's concrete examples: `cache/set` is
rejected (leaving a fresh ledger unchanged), its percent-encoded form
`cache%2Fset` is accepted, and a description containing a double quote
is rejected. -/
theorem c5_witness :
    matchesLabelRegex "cache/set" = false ∧
    add (mkServerTiming none) (.str "cache/set") =
      .error (.validationError "cache/set") ∧
    stepM (mkServerTiming none) (.addO (.str "cache/set")) =
      mkServerTiming none ∧
    matchesLabelRegex "cache%2Fset" = true ∧
    add (mkServerTiming none) (.str "cache%2Fset") =
      .ok ⟨[⟨"cache%2Fset", none, none, none, none⟩], none⟩ ∧
    add (mkServerTiming none)
        (.obj "http" (some "\"Slow\" External API") none) =
      .error (.validationError "\"Slow\" External API") := by
  have h1 := (c5_validation (mkServerTiming none) (.str "cache/set")
    0 0 0 (Except.ok 0 : Except Unit Nat)).1 (by decide)
  have h2 := ((c5_validation (mkServerTiming none) (.str "cache%2Fset")
    0 0 0 (Except.ok 0 : Except Unit Nat)).2.2 (by decide) (by decide)).1
  have h3 := ((c5_validation (mkServerTiming none)
    (.obj "http" (some "\"Slow\" External API") none)
    0 0 0 (Except.ok 0 : Except Unit Nat)).2.1 (by decide) (by decide)).1
  exact ⟨by decide, h1.1, h1.2.2.2.1, by decide, h2, h3⟩

/-- C1: an entry started via `start` at clock `s` and ended via `end` at
clock `t` (with `s ≤ t`, the clock being monotone, and `s ≠ 0` since a
zero bigint is falsy) carries `start = s`, `end = t`; its rendered
`;dur=` value is `formatDuration`, whose numeric value is exactly
`(t - s) / 1000000` milliseconds and is non-negative; with unbounded
precision (the default) the full-precision number is emitted, and with a
finite precision `p` the `toFixed` string is emitted, which for `p > 0`
has exactly `p` digit characters after the decimal point. -/
theorem c1_started_ended_duration (st : ServerTiming) (label : String)
    (s t now : Nat)
    (hvalid : matchesLabelRegex label = true)
    (hfresh : ∀ e ∈ st.timings, e.label ≠ label)
    (hs : 0 < s) (hst : s ≤ t) :
    ((start st (.str label) s) >>=
        (fun st1 => endOp st1 (.str label) t)) =
      .ok { st with timings := st.timings ++
        [{ label := label, desc := none, dur := none,
           start := some s, endAt := some t }] } ∧
    0 ≤ ((t : ℚ) - (s : ℚ)) / 1000000 ∧
    entryDurOut st.precision now
        ⟨label, none, none, some s, some t⟩ =
      some (formatDuration st.precision s t) ∧
    formatDuration none s t = .num (((t : ℚ) - (s : ℚ)) / 1000000) ∧
    (∀ p, formatDuration (some p) s t =
      .str (toFixed p (((t : ℚ) - (s : ℚ)) / 1000000))) ∧
    (∀ p, 0 < p → ∃ a b,
      toFixed p (((t : ℚ) - (s : ℚ)) / 1000000) = a ++ "." ++ b ∧
      b.length = p ∧ b.data.all Char.isDigit = true) := by
  have hv : transformLabel (.str label) = .ok ⟨label, none, none⟩ := by
    rw [transformLabel_eq]
    simp [ServerTimingLabel.labelOf, ServerTimingLabel.descOf,
      ServerTimingLabel.durOf, hvalid, truthyStr]
  refine ⟨?_, ?_, ?_, by simp [formatDuration, formatDuration_val],
    fun p => by simp [formatDuration, formatDuration_val],
    fun p hp => toFixed_shape p hp _⟩
  · rw [start_ok st s hv, STiming.except_bind_ok, endOp_eq _ t hv]
    dsimp only
    rw [setEndAt_first st.timings
      ⟨label, none, none, some s, none⟩ [] label t hfresh rfl]
  · exact div_nonneg (sub_nonneg.mpr (by exact_mod_cast hst)) (by norm_num)
  · simp [entryDurOut, truthyQ, truthyNat, hs.ne']

/-- Witness for C1 at a concrete input: `start("foo")` at 1 ns, then
`end("foo")` at 2 000 001 ns, with precision 2: the duration value is
`(2000001 - 1) / 1000000 = 2` milliseconds exactly, rendered `"2.00"`. -/
theorem c1_witness :
    (0 < 1 ∧ (1 : Nat) ≤ 2000001) ∧
    ((start (mkServerTiming (some 2)) (.str "foo") 1) >>=
        (fun st1 => endOp st1 (.str "foo") 2000001)) =
      .ok ⟨[⟨"foo", none, none, some 1, some 2000001⟩], some 2⟩ ∧
    entryDurOut (some 2) 0 ⟨"foo", none, none, some 1, some 2000001⟩ =
      some (.str "2.00") ∧
    toFixed 2 (mkRat 2000000 1000000) = "2.00" := by
  have h := c1_started_ended_duration (mkServerTiming (some 2)) "foo"
    1 2000001 0 (by decide) (by intro e he; cases he)
    (by decide) (by decide)
  exact ⟨⟨by decide, by decide⟩, h.1, h.2.2.1.trans (by rfl), by rfl⟩

/-- C4 (amended): an entry added with an explicit *nonzero* duration
renders `;dur=<duration>` with the supplied value; an explicit duration
of `0` is falsy in the `if (timing.dur)` test, so no `dur` field is
emitted for it (the entry renders like a note); the example
`add("miss"); add({label:"db", dur:53})` renders exactly
`"miss, db;dur=53"`. -/
theorem c4_explicit_duration (pr : Option Nat) (now : Nat) (label : String)
    (desc : Option String) (d : ℚ) (hd : d ≠ 0) :
    renderFragment pr now ⟨label, desc, some d, none, none⟩ =
      (if truthyStr desc then label ++ ";desc=\"" ++ desc.getD "" ++ "\""
       else label) ++ ";dur=" ++ ratToString d ∧
    renderFragment pr now ⟨label, desc, some 0, none, none⟩ =
      (if truthyStr desc then label ++ ";desc=\"" ++ desc.getD "" ++ "\""
       else label) ∧
    STiming.toString (runM none [.addO (.str "miss"),
      .addO (.obj "db" none (some 53))]) now = "miss, db;dur=53" := by
  have hout : entryDurOut pr now ⟨label, desc, some d, none, none⟩ =
      some (.num d) := by
    simp [entryDurOut, truthyQ, hd]
  have hout0 : entryDurOut pr now ⟨label, desc, some 0, none, none⟩ =
      none := by
    simp [entryDurOut, truthyQ, truthyNat]
  refine ⟨?_, ?_, rfl⟩
  · simp only [renderFragment, hout]
    rfl
  · simp only [renderFragment, hout0]

/-- C4 counterexample: an entry added with the explicit duration `0`
renders as a bare label — its fragment is `"z"`, which does not contain
`";dur="` at all, contradicting the claim that an explicit duration of 0
is rendered as `;dur=0`. -/
theorem c4_counterexample :
    STiming.toString (runM none [.addO (.str "miss"),
      .addO (.obj "db" none (some 53)),
      .addO (.obj "z" none (some 0))]) 7 = "miss, db;dur=53, z" ∧
    renderFragment none 7 ⟨"z", none, some 0, none, none⟩ = "z" ∧
    ¬ (";dur=".data <:+: "z".data) := by
  exact ⟨rfl, rfl, by decide⟩

/-- Witness for C4 (amended) at concrete inputs: duration 53 renders
`;dur=53`, duration 0 renders no `dur` field. -/
theorem c4_witness :
    (53 : ℚ) ≠ 0 ∧
    renderFragment none 7 ⟨"db", none, some 53, none, none⟩ =
      "db;dur=53" ∧
    renderFragment none 7 ⟨"db", none, some 0, none, none⟩ = "db" := by
  have h := c4_explicit_duration none 7 "db" none 53 (by decide)
  exact ⟨by decide, h.1.trans (by rfl), h.2.1.trans (by rfl)⟩

/-- C3 (amended): `end(L)` stamps `endedAt` with the current clock
reading on the *first* entry of the sequence whose label equals `L` —
whether or not that entry already has `endedAt` set — and leaves every
other entry unchanged. -/
theorem c3_end_first_match (st : ServerTiming) (spec : ServerTimingLabel)
    (now : Nat) (tl : DetailedLabel) (pre : List Entry) (e : Entry)
    (post : List Entry)
    (hv : transformLabel spec = .ok tl)
    (hsplit : st.timings = pre ++ e :: post)
    (hpre : ∀ e' ∈ pre, e'.label ≠ tl.label)
    (he : e.label = tl.label) :
    endOp st spec now =
      .ok { st with
        timings := pre ++ { e with endAt := some now } :: post } := by
  rw [endOp_eq st now hv, hsplit,
    setEndAt_first pre e post tl.label now hpre he]

/-- Witness for C3 (amended) at a concrete input: a ledger whose first
entry is labelled `x`; `end("x")` at clock 9 stamps it. -/
theorem c3_witness :
    endOp ⟨[⟨"x", none, none, some 1, some 2⟩,
            ⟨"y", none, none, some 3, none⟩], none⟩ (.str "x") 9 =
      .ok ⟨[⟨"x", none, none, some 1, some 9⟩,
            ⟨"y", none, none, some 3, none⟩], none⟩ := by
  exact c3_end_first_match
    ⟨[⟨"x", none, none, some 1, some 2⟩,
      ⟨"y", none, none, some 3, none⟩], none⟩ (.str "x") 9
    ⟨"x", none, none⟩ [] ⟨"x", none, none, some 1, some 2⟩
    [⟨"y", none, none, some 3, none⟩]
    (by rfl) (by rfl) (by intro e' he'; cases he') (by rfl)

/-- C3 counterexample: in a ledger holding a finished `x` entry followed
by a running `x` entry (reachable by `start x; end x; start x`),
`end("x")` at clock 9 overwrites the *finished first* entry's `endedAt`
and leaves the running one untouched — not, as claimed, the
most-recently-matching entry without `endedAt`. -/
theorem c3_counterexample :
    runM none [.startO (.str "x") 1, .endO (.str "x") 2,
      .startO (.str "x") 3] =
      ⟨[⟨"x", none, none, some 1, some 2⟩,
        ⟨"x", none, none, some 3, none⟩], none⟩ ∧
    endOp ⟨[⟨"x", none, none, some 1, some 2⟩,
            ⟨"x", none, none, some 3, none⟩], none⟩ (.str "x") 9 =
      .ok ⟨[⟨"x", none, none, some 1, some 9⟩,
            ⟨"x", none, none, some 3, none⟩], none⟩ ∧
    (⟨[⟨"x", none, none, some 1, some 9⟩,
       ⟨"x", none, none, some 3, none⟩], none⟩ : ServerTiming) ≠
      ⟨[⟨"x", none, none, some 1, some 2⟩,
        ⟨"x", none, none, some 3, some 9⟩], none⟩ := by
  exact ⟨rfl, rfl, by decide⟩

/-- `track` fully unfolded after successful validation: a
match on where `findIndex` puts the closing stamp. -/
theorem STiming.track_eq2 {spec : ServerTimingLabel} {tl : DetailedLabel}
    (st : ServerTiming) {ε α : Type} (op : Except ε α) (t1 t2 : Nat)
    (hv : transformLabel spec = .ok tl) :
    track st spec op t1 t2 =
      match setEndAt (st.timings ++
          [{ label := tl.label, desc := tl.desc, dur := tl.dur,
             start := some t1, endAt := none }]) tl.label t2 with
      | some ts => .ok (op, { st with timings := ts })
      | none => .error (.notStartedError tl.label) := by
  rw [STiming.track_eq st op t1 t2 hv, endOp_eq _ t2 hv]
  dsimp only
  cases setEndAt (st.timings ++
      [{ label := tl.label, desc := tl.desc, dur := tl.dur,
         start := some t1, endAt := none }]) tl.label t2 <;> rfl

/-- C6 (amended): for a valid labelSpec, `track` starts an entry, runs
the operation, and calls `end` on that label exactly once on every exit
path; the wrapped operation's outcome — success value or thrown error —
is propagated verbatim after `end` has run; `end` stamps the first entry
of the sequence carrying that label, so the entry `track` started is the
one closed precisely when no earlier entry shares its label. -/
theorem c6_track_closes (st : ServerTiming) (spec : ServerTimingLabel)
    {ε α : Type} (op : Except ε α) (t1 t2 : Nat) (tl : DetailedLabel)
    (hv : transformLabel spec = .ok tl) :
    ∃ ts, setEndAt (st.timings ++
        [{ label := tl.label, desc := tl.desc, dur := tl.dur,
           start := some t1, endAt := none }]) tl.label t2 = some ts ∧
      track st spec op t1 t2 = .ok (op, { st with timings := ts }) ∧
      ((∀ e ∈ st.timings, e.label ≠ tl.label) →
        ts = st.timings ++
          [{ label := tl.label, desc := tl.desc, dur := tl.dur,
             start := some t1, endAt := some t2 }]) := by
  have hsome := setEndAt_append_isSome st.timings
    ⟨tl.label, tl.desc, tl.dur, some t1, none⟩ tl.label t2 rfl
  cases hse : setEndAt (st.timings ++
      [{ label := tl.label, desc := tl.desc, dur := tl.dur,
         start := some t1, endAt := none }]) tl.label t2 with
  | none => rw [hse] at hsome; cases hsome
  | some ts =>
    refine ⟨ts, rfl, ?_, ?_⟩
    · rw [STiming.track_eq2 st op t1 t2 hv, hse]
    · intro hfresh
      have hfirst := setEndAt_first st.timings
        ⟨tl.label, tl.desc, tl.dur, some t1, none⟩ [] tl.label t2 hfresh rfl
      rw [hse] at hfirst
      exact Option.some.inj hfirst

/-- Witness for C6 at concrete inputs: a fresh ledger, label `foo`,
clocks 5 and 9, once with a succeeding operation and once with a
throwing one — the result or error comes back verbatim and the entry is
closed with `endedAt = 9` in both cases. -/
theorem c6_witness :
    track (mkServerTiming none) (.str "foo")
        (Except.ok 42 : Except Unit Nat) 5 9 =
      .ok (.ok 42, ⟨[⟨"foo", none, none, some 5, some 9⟩], none⟩) ∧
    track (mkServerTiming none) (.str "foo")
        (Except.error () : Except Unit Nat) 5 9 =
      .ok (.error (), ⟨[⟨"foo", none, none, some 5, some 9⟩], none⟩) := by
  obtain ⟨ts, hse, htr, hfr⟩ := c6_track_closes (mkServerTiming none)
    (.str "foo") (Except.ok 42 : Except Unit Nat) 5 9
    ⟨"foo", none, none⟩ (by rfl)
  obtain ⟨ts2, hse2, htr2, hfr2⟩ := c6_track_closes (mkServerTiming none)
    (.str "foo") (Except.error () : Except Unit Nat) 5 9
    ⟨"foo", none, none⟩ (by rfl)
  have hts : ts = [⟨"foo", none, none, some 5, some 9⟩] :=
    hfr (by intro e he; cases he)
  have hts2 : ts2 = [⟨"foo", none, none, some 5, some 9⟩] :=
    hfr2 (by intro e he; cases he)
  rw [hts] at htr
  rw [hts2] at htr2
  exact ⟨htr, htr2⟩

/-- C6 counterexample: when the ledger already holds an entry labelled
`x` (here a bare note added first), `track("x", op)` still calls `end`,
but `findIndex` stamps the earlier note instead of the entry `track`
started: the result ledger is `[x note with endedAt = 9, x started at 5
with endedAt unset]` — the tracked entry is never closed, contradicting
"in both cases after the entry has been closed". -/
theorem c6_counterexample :
    track (runM none [.addO (.str "x")]) (.str "x")
        (Except.ok 42 : Except Unit Nat) 5 9 =
      .ok (.ok 42, ⟨[⟨"x", none, none, none, some 9⟩,
        ⟨"x", none, none, some 5, none⟩], none⟩) ∧
    ([⟨"x", none, none, none, some 9⟩,
      ⟨"x", none, none, some 5, none⟩] : List Entry).map Entry.endAt =
      [some 9, none] := by
  exact ⟨rfl, rfl⟩

/-- One mutation step appends at most the operation's creation label to
the ledger's label sequence (nothing on failure or for `end`). -/
theorem STiming.stepM_labels (st : ServerTiming) (op : MOp) :
    ∃ newL, (stepM st op).timings.map Entry.label =
      st.timings.map Entry.label ++ newL ∧
      List.Sublist newL (creationLabels [op]) := by
  cases op with
  | addO spec =>
    cases htr : transformLabel spec with
    | ok tl =>
      obtain ⟨rfl, -, -⟩ := transformLabel_ok htr
      refine ⟨[spec.labelOf], ?_, by simp [creationLabels]⟩
      simp [stepM, add_ok st htr, Except.toOption]
    | error er =>
      exact ⟨[], by simp [stepM, add_err st htr, Except.toOption],
        List.nil_sublist _⟩
  | startO spec t =>
    cases htr : transformLabel spec with
    | ok tl =>
      obtain ⟨rfl, -, -⟩ := transformLabel_ok htr
      refine ⟨[spec.labelOf], ?_, by simp [creationLabels]⟩
      simp [stepM, start_ok st t htr, Except.toOption]
    | error er =>
      exact ⟨[], by simp [stepM, start_err st t htr, Except.toOption],
        List.nil_sublist _⟩
  | endO spec t =>
    refine ⟨[], ?_, List.nil_sublist _⟩
    cases htr : transformLabel spec with
    | ok tl =>
      cases hse : setEndAt st.timings tl.label t with
      | some ts =>
        have h : stepM st (.endO spec t) = { st with timings := ts } := by
          have he := endOp_eq st t htr
          rw [hse] at he
          simp [stepM, he, Except.toOption]
        rw [h]
        simpa using setEndAt_labels hse
      | none =>
        have he := endOp_eq st t htr
        rw [hse] at he
        simp [stepM, he, Except.toOption]
    | error er => simp [stepM, endOp_err st t htr, Except.toOption]
  | trackO spec t1 t2 =>
    cases htr : transformLabel spec with
    | ok tl =>
      obtain ⟨rfl, -, -⟩ := transformLabel_ok htr
      cases hse : setEndAt (st.timings ++
          [{ label := spec.labelOf, desc := spec.descOf, dur := spec.durOf,
             start := some t1, endAt := none }]) spec.labelOf t2 with
      | some ts =>
        have h : trackLedger st spec t1 t2 = .ok { st with timings := ts } := by
          unfold trackLedger
          rw [start_ok st t1 htr, STiming.except_bind_ok, endOp_eq _ t2 htr]
          dsimp only
          rw [hse]
        refine ⟨[spec.labelOf], ?_, by simp [creationLabels]⟩
        have hlab := setEndAt_labels hse
        simp only [stepM, h, Except.toOption, Option.getD_some]
        rw [hlab]
        simp
      | none =>
        have h : trackLedger st spec t1 t2 =
            .error (.notStartedError spec.labelOf) := by
          unfold trackLedger
          rw [start_ok st t1 htr, STiming.except_bind_ok, endOp_eq _ t2 htr]
          dsimp only
          rw [hse]
        exact ⟨[], by simp [stepM, h, Except.toOption], List.nil_sublist _⟩
    | error er =>
      have h : trackLedger st spec t1 t2 = .error er := by
        unfold trackLedger
        rw [start_err st t1 htr]
        rfl
      exact ⟨[], by simp [stepM, h, Except.toOption], List.nil_sublist _⟩

/-- Running a sequence of mutations extends the label sequence by a
sublist of the creation labels of the sequence. -/
theorem STiming.runFrom_labels :
    ∀ (ops : List MOp) (st : ServerTiming),
    ∃ rest, ((ops.foldl stepM st).timings.map Entry.label) =
      st.timings.map Entry.label ++ rest ∧ List.Sublist rest (creationLabels ops) := by
  intro ops
  induction ops with
  | nil => exact fun st => ⟨[], by simp, List.nil_sublist _⟩
  | cons op ops ih =>
    intro st
    obtain ⟨n1, h1, hs1⟩ := STiming.stepM_labels st op
    obtain ⟨rest, h2, hs2⟩ := ih (stepM st op)
    refine ⟨n1 ++ rest, ?_, ?_⟩
    · simp only [List.foldl_cons]
      rw [h2, h1, List.append_assoc]
    · have hcl : creationLabels (op :: ops) =
          creationLabels [op] ++ creationLabels ops := by
        cases op <;> rfl
      rw [hcl]
      exact List.Sublist.append hs1 hs2

/-- C9 (amended): label uniqueness is not enforced by the code — a flat
ledger holds one entry per *successful* entry-creating call, so labels
can repeat; when the entry-creating operations (`add`/`start`/`track`)
of a mutation sequence use pairwise-distinct labels, the resulting
ledger contains at most one entry with any given label. -/
theorem c9_unique_when_distinct (pr : Option Nat) (ops : List MOp)
    (hd : (creationLabels ops).Nodup) :
    ∀ l, countLabel (runM pr ops) l ≤ 1 := by
  obtain ⟨rest, h, hs⟩ := STiming.runFrom_labels ops (mkServerTiming pr)
  intro l
  have hmap : (runM pr ops).timings.map Entry.label = rest := by
    simpa [runM, mkServerTiming] using h
  have hn : ((runM pr ops).timings.map Entry.label).Nodup := by
    rw [hmap]
    exact hd.sublist hs
  simpa [countLabel] using List.nodup_iff_count_le_one.mp hn l

/-- Witness for C9 (amended) at a concrete input: two creations with
distinct labels. -/
theorem c9_witness :
    (creationLabels [.addO (.str "a"), .startO (.str "b") 1]).Nodup ∧
    countLabel (runM none [.addO (.str "a"), .startO (.str "b") 1])
      "a" ≤ 1 := by
  refine ⟨by decide, ?_⟩
  exact c9_unique_when_distinct none
    [.addO (.str "a"), .startO (.str "b") 1] (by decide) "a"

/-- C9 counterexample: `add("x"); add("x")` is a sequence of mutation
operations after which the flat ledger holds two entries labelled `x` —
the claimed at-most-one-entry-per-label invariant fails. -/
theorem c9_counterexample :
    countLabel (runM none [.addO (.str "x"), .addO (.str "x")]) "x" = 2 ∧
    ¬ (countLabel (runM none [.addO (.str "x"), .addO (.str "x")])
        "x" ≤ 1) := by
  exact ⟨by decide, by decide⟩

end Claims

namespace Grouped

/-- Stamping `end` maps entries to entries and leaves nested instances
untouched, so it preserves any predicate true of all entries. -/
theorem setEndG_all {P : Item → Bool}
    (hent : ∀ l d du s e, P (.entry l d du s e) = true) :
    ∀ {ts : List Item} {lab : String} {t : Nat} {ts' : List Item},
    setEndG ts lab t = some ts' → ts.all P = true → ts'.all P = true := by
  intro ts
  induction ts with
  | nil => intro lab t ts' h; simp [setEndG] at h
  | cons i rest ih =>
    intro lab t ts' h hall
    simp only [List.all_cons, Bool.and_eq_true] at hall
    cases i with
    | entry l d du s e =>
      simp only [setEndG] at h
      by_cases hl : l == lab
      · rw [if_pos hl] at h
        cases h
        simp [hent, hall.2]
      · rw [if_neg hl] at h
        cases hrec : setEndG rest lab t with
        | none => rw [hrec] at h; cases h
        | some ts2 =>
          rw [hrec] at h
          cases h
          simp [hall.1, ih hrec hall.2]
    | sub p sts =>
      simp only [setEndG] at h
      cases hrec : setEndG rest lab t with
      | none => rw [hrec] at h; cases h
      | some ts2 =>
        rw [hrec] at h
        cases h
        simp [hall.1, ih hrec hall.2]

/-- A successful flat call preserves "every item is good". -/
theorem applyFlat_good {patched : Bool} {ts : List Item} {op : GOp}
    {ts' : List Item} (h : applyFlat patched ts op = .ok ts')
    (hall : ts.all goodItem = true) : ts'.all goodItem = true := by
  cases op with
  | note l d du =>
    cases h
    simp [hall, goodItem]
  | startT l d du t =>
    cases h
    simp [hall, goodItem]
  | endT l t =>
    simp only [applyFlat] at h
    cases hse : setEndG ts l t with
    | none => rw [hse] at h; cases h
    | some ts2 =>
      rw [hse] at h
      cases h
      exact setEndG_all (fun _ _ _ _ _ => rfl) hse hall
  | group =>
    simp only [applyFlat] at h
    by_cases hp : patched
    · rw [if_pos hp] at h; cases h
    · rw [if_neg hp] at h
      cases h
      simp [hall, goodItem]

/-- A successful flat call on a patched (nested) instance preserves
flatness of its sequence: `group` is the only call that could add depth
and it throws there. -/
theorem applyFlat_flat {ts : List Item} {op : GOp} {ts' : List Item}
    (h : applyFlat true ts op = .ok ts')
    (hall : ts.all flatItem = true) : ts'.all flatItem = true := by
  cases op with
  | note l d du =>
    cases h
    simp [hall, flatItem]
  | startT l d du t =>
    cases h
    simp [hall, flatItem]
  | endT l t =>
    simp only [applyFlat] at h
    cases hse : setEndG ts l t with
    | none => rw [hse] at h; cases h
    | some ts2 =>
      rw [hse] at h
      cases h
      exact setEndG_all (fun _ _ _ _ _ => rfl) hse hall
  | group => simp [applyFlat] at h

/-- Updating one position with a good item preserves "all good". -/
theorem all_set_good :
    ∀ (ts : List Item) (i : Nat) (a : Item),
    ts.all goodItem = true → goodItem a = true →
    (ts.set i a).all goodItem = true := by
  intro ts
  induction ts with
  | nil => intro i a _ _; simp
  | cons x xs ih =>
    intro i a hall ha
    simp only [List.all_cons, Bool.and_eq_true] at hall
    cases i with
    | zero => simp [ha, hall.2]
    | succ n => simp [hall.1, ih n a hall.2 ha]

/-- The reachable-state invariant: the outer ledger is unpatched and
every nested instance in its sequence is patched and flat. -/
def invG (st : GLedger) : Prop :=
  st.patched = false ∧ st.timings.all goodItem = true

/-- One addressed call (with errors leaving the state as it was)
preserves the invariant. -/
theorem invG_step {st : GLedger} (a : Addr) (op : GOp) (hin : invG st) :
    invG ((applyOp st a op).toOption.getD st) := by
  obtain ⟨hp, hall⟩ := hin
  cases a with
  | top =>
    cases h : applyFlat st.patched st.timings op with
    | error er =>
      have hstep : applyOp st .top op = .error er := by
        simp only [applyOp, h]
        rfl
      rw [hstep]
      exact ⟨hp, hall⟩
    | ok ts =>
      have hstep : applyOp st .top op = .ok { st with timings := ts } := by
        simp only [applyOp, h]
        rfl
      rw [hstep]
      exact ⟨hp, applyFlat_good h hall⟩
  | child i =>
    cases hget : st.timings.get? i with
    | none =>
      have hstep : applyOp st (.child i) op = .error .badAddr := by
        simp only [applyOp, hget]
      rw [hstep]
      exact ⟨hp, hall⟩
    | some item =>
      cases item with
      | entry l d du s e =>
        have hstep : applyOp st (.child i) op = .error .badAddr := by
          simp only [applyOp, hget]
        rw [hstep]
        exact ⟨hp, hall⟩
      | sub p sts =>
        have hmem : Item.sub p sts ∈ st.timings := List.get?_mem hget
        have hgood : goodItem (.sub p sts) = true :=
          List.all_eq_true.mp hall _ hmem
        have hps : p = true ∧ sts.all flatItem = true := by
          simpa [goodItem] using hgood
        cases h : applyFlat p sts op with
        | error er =>
          have hstep : applyOp st (.child i) op = .error er := by
            simp only [applyOp, hget, h]
            rfl
          rw [hstep]
          exact ⟨hp, hall⟩
        | ok sts2 =>
          have hstep : applyOp st (.child i) op =
              .ok { st with timings := st.timings.set i (.sub p sts2) } := by
            simp only [applyOp, hget, h]
            rfl
          rw [hstep]
          refine ⟨hp, ?_⟩
          have hflat2 : sts2.all flatItem = true := by
            rw [hps.1] at h
            exact applyFlat_flat h hps.2
          exact all_set_good st.timings i _ hall
            (by simp [goodItem, hps.1, hflat2])

/-- Every state reachable from a fresh ledger satisfies the invariant. -/
theorem invG_runG (cmds : List (Addr × GOp)) : invG (runG cmds) := by
  have hgen : ∀ (cs : List (Addr × GOp)) (st : GLedger), invG st →
      invG (cs.foldl
        (fun s c => (applyOp s c.1 c.2).toOption.getD s) st) := by
    intro cs
    induction cs with
    | nil => exact fun st h => h
    | cons c cs ih =>
      intro st h
      exact ih _ (invG_step c.1 c.2 h)
  exact hgen cmds ⟨false, []⟩ ⟨rfl, rfl⟩

/-- A sequence of flat items has nesting depth zero. -/
theorem itemListDepth_of_flat {ts : List Item}
    (h : ts.all flatItem = true) : itemListDepth ts = 0 := by
  induction ts with
  | nil => rfl
  | cons i rest ih =>
    simp only [List.all_cons, Bool.and_eq_true] at h
    cases i with
    | entry l d du s e =>
      simp only [itemListDepth, itemDepth]
      rw [ih h.2]
      rfl
    | sub p sts => simp [flatItem] at h

/-- A good item contributes depth at most one. -/
theorem itemDepth_le_one {i : Item} (h : goodItem i = true) :
    itemDepth i ≤ 1 := by
  cases i with
  | entry l d du s e => simp [itemDepth]
  | sub p sts =>
    have hps : p = true ∧ sts.all flatItem = true := by
      simpa [goodItem] using h
    simp [itemDepth, itemListDepth_of_flat hps.2]

/-- Bounding the depth of a sequence by a bound on its items. -/
theorem itemListDepth_le {ts : List Item}
    (h : ∀ i ∈ ts, itemDepth i ≤ 1) : itemListDepth ts ≤ 1 := by
  induction ts with
  | nil => simp [itemListDepth]
  | cons i rest ih =>
    simp only [itemListDepth]
    exact Nat.max_le.mpr ⟨h i (List.mem_cons_self ..),
      ih (fun j hj => h j (List.mem_cons_of_mem _ hj))⟩

/-- Under the invariant, `group()` addressed at any nested instance
throws `NestingError` (the instance's `group` was patched), and at a
position that holds no nested instance the call is not addressable. -/
theorem applyOp_child_group {st : GLedger} (i : Nat) (hin : invG st) :
    ∃ er, applyOp st (.child i) .group = .error er ∧
      (∀ p ts, st.timings.get? i = some (.sub p ts) →
        er = .nestingError) := by
  cases hget : st.timings.get? i with
  | none =>
    refine ⟨.badAddr, by simp only [applyOp, hget], ?_⟩
    intro p ts h
    cases h
  | some item =>
    cases item with
    | entry l d du s e =>
      refine ⟨.badAddr, by simp only [applyOp, hget], ?_⟩
      intro p ts h
      cases h
    | sub p sts =>
      have hmem : Item.sub p sts ∈ st.timings := List.get?_mem hget
      have hgood : goodItem (.sub p sts) = true :=
        List.all_eq_true.mp hin.2 _ hmem
      have hps : p = true ∧ sts.all flatItem = true := by
        simpa [goodItem] using hgood
      refine ⟨.nestingError, ?_, fun _ _ _ => rfl⟩
      simp only [applyOp, hget, applyFlat, hps.1]
      rfl

end Grouped

namespace Claims

open Grouped

/-- C8: in every state reachable by any sequence of addressed calls,
calling `group()` on a nested group fails with `NestingError`; the
failed call leaves the outer ledger exactly as it was (the first group
is still in the sequence, unchanged); and the nesting depth of the
reachable state never exceeds one level. -/
theorem c8_group_nesting (cmds : List (Addr × GOp)) (i : Nat) :
    (∀ p ts, (runG cmds).timings.get? i = some (.sub p ts) →
      applyOp (runG cmds) (.child i) .group = .error .nestingError) ∧
    runG (cmds ++ [(.child i, .group)]) = runG cmds ∧
    ledgerDepth (runG cmds) ≤ 1 := by
  have hin := invG_runG cmds
  obtain ⟨er, herr, hner⟩ := @applyOp_child_group (runG cmds) i hin
  refine ⟨?_, ?_, ?_⟩
  · intro p ts hget
    cases hner p ts hget
    exact herr
  · have hstep : runG (cmds ++ [(.child i, .group)]) =
        (applyOp (runG cmds) (.child i) .group).toOption.getD
          (runG cmds) := by
      simp [runG, List.foldl_append]
    rw [hstep, herr]
    rfl
  · exact itemListDepth_le (fun j hj =>
      itemDepth_le_one (List.all_eq_true.mp hin.2 _ hj))

/-- Witness for C8 at a concrete input: `group()` once at the top, then
`group()` again on the created group. -/
theorem c8_witness :
    runG [(.top, .group)] =
      { patched := false, timings := [.sub true []] } ∧
    (runG [(.top, .group)]).timings.get? 0 = some (.sub true []) ∧
    applyOp (runG [(.top, .group)]) (.child 0) .group =
      .error .nestingError ∧
    runG ([(.top, .group)] ++ [(.child 0, .group)]) =
      runG [(.top, .group)] ∧
    ledgerDepth (runG [(.top, .group)]) ≤ 1 := by
  have h := c8_group_nesting [(.top, .group)] 0
  exact ⟨rfl, rfl, h.1 true [] rfl, h.2.1, h.2.2⟩

end Claims
